import Mathlib

/-!
Shallow embedding of `src/bowtie_inspect.cpp` (bowtie-inspect).

The embedded pieces are: the FASTA formatter `print_fasta_record`
(lines 119-139), the packed-store decode path `print_ref_sequence`
(lines 146-171), the index-traversal reconstruction path
`print_index_sequences` (lines 213-272), the option parser `parseInt`
(lines 70-86, with the across-option call site at line 107), and the
summary reporter `print_index_summary` (lines 288-330).

External collaborators (the Ebwt/BitPairReference engine from `ebwt.h` and
`reference.h`, the C library `strtol`, and the assertion macros from
`assert_helpers.h`) are not in `src/`; where a claim depends on them they
are modelled from the spec, as noted in the respective doc comments.
All machine integers of the source (`uint32_t`, `int`, `size_t`) are
modelled as `Nat`/`Int`, with explicit `% 2^32` at the places where the
source performs 32-bit unsigned wrap-around arithmetic.
-/

/-- The modulus of 32-bit unsigned arithmetic, `2^32`. -/
def u32 : Nat := 4294967296

/-- The `uint32_t` value `0xffffffff`, used by the source as the
"no reference / not set" sentinel. -/
def sentinel : Nat := 4294967295

/-! ### FastaFormatter: `print_fasta_record` (lines 119-139) -/

/-- The wrapping loop of `print_fasta_record` (lines 127-135): while
`i + across < seq.length()` emit a full-width chunk, then emit the
remainder (if nonempty) as the final line.  The first argument is fuel
for structural recursion; `wrapChunks` supplies `s.length`, which always
suffices because each iteration consumes at least one character. -/
def wrapChunksGo (w : Nat) : Nat → List Char → List (List Char)
  | 0, _ => []
  | fuel + 1, s =>
    if 0 < w ∧ w < s.length then s.take w :: wrapChunksGo w fuel (s.drop w)
    else if s.length = 0 then [] else [s]

/-- The list of body lines produced by `print_fasta_record` for width
`w > 0` (lines 127-135). -/
def wrapChunks (w : Nat) (s : List Char) : List (List Char) :=
  wrapChunksGo w s.length s

/-- `print_fasta_record` (lines 119-139): a `>`-header line with the
defline, then, when `across > 0`, the sequence wrapped into
`across`-character lines, and otherwise the whole sequence followed by a
single newline.  The output stream is modelled as the list of characters
written to it. -/
def print_fasta_record (across : Int) (defline seq : List Char) : List Char :=
  '>' :: defline ++ '\n' ::
    (if 0 < across then
      ((wrapChunks across.toNat seq).map (fun l => l ++ ['\n'])).flatten
    else seq ++ ['\n'])

/-! ### PackedReferenceDecoder path: `print_ref_sequence` (lines 146-171) -/

/-- The character table `"ACGTN"` indexed by a decoded symbol (line 166).
For symbols `> 4` the source asserts (and aborts) before indexing, so the
catch-all arm is never consumed by a successful run. -/
def baseChar : Nat → Char
  | 0 => 'A'
  | 1 => 'C'
  | 2 => 'G'
  | 3 => 'T'
  | _ => 'N'

/-- The inner `j` loop of `print_ref_sequence` (lines 163-167): before
each symbol, emit a newline when `newlines && j > 0 && j % myacross == 0`;
then check the decoded symbol and emit its base character.

Modelled from the spec: `assert_range(0, 4, cb[j])` (from
`assert_helpers.h`, which is not under `src/`) treats a decoded symbol
outside `0..4` as a fatal integrity violation that aborts the run; the
abort is modelled as `Except.error`.

The first `Nat` argument is the loop index `j`, the second the number of
remaining iterations (`amt - j`); `emitChunk` starts it at `amt`. -/
def emitChunkGo (newlines : Bool) (myacross : Nat) (cb : Nat → Nat) : Nat → Nat → Except Unit (List Char)
  | _, 0 => Except.ok []
  | j, rem + 1 =>
    if cb j ≤ 4 then
      match emitChunkGo newlines myacross cb (j + 1) rem with
      | Except.ok rest =>
        Except.ok ((if newlines ∧ 0 < j ∧ j % myacross = 0 then ['\n'] else []) ++
          baseChar (cb j) :: rest)
      | Except.error e => Except.error e
    else Except.error ()

/-- The inner loop of `print_ref_sequence` over one decoded chunk of
`amt` symbols, `cb j` being the `j`-th decoded symbol byte of the
chunk. -/
def emitChunk (newlines : Bool) (myacross : Nat) (cb : Nat → Nat) (amt : Nat) : Except Unit (List Char) :=
  emitChunkGo newlines myacross cb 0 amt

/-- The outer chunking loop of `print_ref_sequence` (lines 158-169):
`for(i = 0; i < len; i += incr)` decode `amt = min(incr, len - i)` bases,
emit them, then emit one newline per chunk.  `stretchRef k` is the
decoded symbol of the reference at offset `k`.  The last `Nat` argument
is fuel for structural recursion; `print_ref_sequence` supplies `len`,
which always suffices because `incr > 0` there. -/
def refLoopGo (newlines : Bool) (myacross incr : Nat) (stretchRef : Nat → Nat) (len : Nat) : Nat → Nat → Except Unit (List Char)
  | _, 0 => Except.ok []
  | i, fuel + 1 =>
    if i < len then
      match emitChunk newlines myacross (fun j => stretchRef (i + j)) (min incr (len - i)) with
      | Except.error e => Except.error e
      | Except.ok s =>
        match refLoopGo newlines myacross incr stretchRef len (i + incr) fuel with
        | Except.error e => Except.error e
        | Except.ok rest => Except.ok (s ++ '\n' :: rest)
    else Except.ok []

/-- `print_ref_sequence` (lines 146-171): header, then the reference
decoded in windows of `incr = myacross * 1000` symbols.

Modelled from the spec: `BitPairReference::getStretch` (from
`reference.h`, not under `src/`) is a pure function of
(reference ordinal, offset) against index state; `stretch refi k` is the
decoded symbol byte of reference `refi` at in-reference offset `k`, so
the chunk buffer satisfies `cb[j] = stretch refi (i + j)`. -/
def print_ref_sequence (across : Int) (stretch : Nat → Nat → Nat) (name : List Char) (refi len : Nat) : Except Unit (List Char) :=
  let newlines : Bool := decide (0 < across)
  let myacross : Nat := if 0 < across then across.toNat else 60
  let incr : Nat := myacross * 1000
  match refLoopGo newlines myacross incr (fun k => stretch refi k) len 0 len with
  | Except.error e => Except.error e
  | Except.ok body => Except.ok ('>' :: name ++ '\n' :: body)

/-! ### IndexTraversalReconstructor: `print_index_sequences` (lines 213-272) -/

/-- The mutable locals of `print_index_sequences` (lines 220-226):
`curr_ref`, `curr_ref_seq`, `curr_ref_len`, `last_text_off`, `first`.
All `uint32_t` fields are modelled as `Nat`. -/
structure TravState where
  curr_ref : Nat
  curr_ref_seq : List Char
  curr_ref_len : Nat
  last_text_off : Nat
  first : Bool
deriving DecidableEq

/-- The initial locals (lines 220-226): `curr_ref = 0xffffffff`,
`curr_ref_seq = ""`, `curr_ref_len = 0xffffffff`, `last_text_off = 0`,
`first = true`. -/
def initTravState : TravState :=
  { curr_ref := sentinel, curr_ref_seq := [], curr_ref_len := sentinel,
    last_text_off := 0, first := true }

/-- Lines 253-254: `textoff_adj = textoff; if(first && textoff > 0)
textoff_adj++;` in `uint32_t` arithmetic. -/
def adjustedOffset (first : Bool) (textoff : Nat) : Nat :=
  if first ∧ 0 < textoff then (textoff + 1) % u32 else textoff

/-- Lines 241-243 and 266-268: pad the accumulated sequence with `'N'`
up to the declared length, when it is shorter. -/
def padTrailing (seq : List Char) (len : Nat) : List Char :=
  if seq.length < len then seq ++ List.replicate (len - seq.length) 'N' else seq

/-- The `(refnames[curr_ref], padded curr_ref_seq)` pair handed to
`print_fasta_record` on a flush (lines 241-244 and 266-269); the
reference is identified by its ordinal `curr_ref` (the source looks the
name up in `refnames`). -/
def flushRecord (st : TravState) : Nat × List Char :=
  (st.curr_ref, padTrailing st.curr_ref_seq st.curr_ref_len)

/-- The state reset on entering a new reference (lines 246-250). -/
def startedState (tidx tlen : Nat) : TravState :=
  { curr_ref := tidx, curr_ref_seq := [], curr_ref_len := tlen,
    last_text_off := 0, first := true }

/-- Lines 253-260: compute `textoff_adj`, gap-fill with
`textoff_adj - last_text_off - 1` ambiguous bases when
`textoff_adj - last_text_off > 1` (a `uint32_t` subtraction, hence the
explicit wrap-around), append the current base `c`, record
`last_text_off = textoff` and clear `first`. -/
def appendBase (st : TravState) (textoff : Nat) (c : Char) : TravState :=
  let textoff_adj := adjustedOffset st.first textoff
  let diff := (textoff_adj + u32 - st.last_text_off) % u32
  let seq := if 1 < diff then st.curr_ref_seq ++ List.replicate (diff - 1) 'N'
             else st.curr_ref_seq
  { curr_ref := st.curr_ref, curr_ref_seq := seq ++ [c],
    curr_ref_len := st.curr_ref_len, last_text_off := textoff, first := false }

/-- One iteration of the traversal loop (lines 227-262) for a single
joined position.

Modelled from the spec: `ebwt.joinedToTextOff` (from `ebwt.h`, not under
`src/`) is the reverse position mapping; its "no mapping" sentinel
(`tidx == 0xffffffff`) is modelled as `none`, and a valid result as
`some (tidx, textoff, tlen)`.  `c` is `cat_ref[i]`, the joined-text
symbol at the position.  Positions with `textoff >= tlen` are skipped
exactly as in line 234. -/
def travStep (st : TravState) (out : List (Nat × List Char))
    (m : Option (Nat × Nat × Nat)) (c : Char) : TravState × List (Nat × List Char) :=
  match m with
  | none => (st, out)
  | some (tidx, textoff, tlen) =>
    if textoff < tlen then
      if st.curr_ref = tidx then
        (appendBase st textoff c, out)
      else
        (appendBase (startedState tidx tlen) textoff c,
         if st.curr_ref = sentinel then out else out ++ [flushRecord st])
    else (st, out)

/-- The traversal loop (lines 227-262) over the list of joined positions;
each element carries the position-mapping result and the joined-text
character of that position. -/
def travLoop : List (Option (Nat × Nat × Nat) × Char) → TravState →
    List (Nat × List Char) → TravState × List (Nat × List Char)
  | [], st, out => (st, out)
  | (m, c) :: rest, st, out =>
    let r := travStep st out m c
    travLoop rest r.1 r.2

/-- `print_index_sequences` (lines 213-272), abstracted over the engine:
the input list holds, for each joined position `i` in order, the
`joinedToTextOff` result and `cat_ref[i]`; `numRefs` is
`refnames->size()`.  The result is the ordered list of
(reference ordinal, sequence) records handed to `print_fasta_record`,
including the final flush of lines 263-270 (guarded by
`curr_ref < refnames->size()`). -/
def print_index_sequences (input : List (Option (Nat × Nat × Nat) × Char))
    (numRefs : Nat) : List (Nat × List Char) :=
  let r := travLoop input initTravState []
  if r.1.curr_ref < numRefs then r.2 ++ [flushRecord r.1] else r.2

/-- The reference ordinals that occur in some valid mapping
(`tidx != 0xffffffff` and `textoff < tlen`) of the traversal input;
exactly the positions that pass the test of line 234. -/
def observedRefs (input : List (Option (Nat × Nat × Nat) × Char)) : List Nat :=
  input.filterMap fun p =>
    match p.1 with
    | some (t, o, l) => if o < l then some t else none
    | none => none

/-- Well-formedness of a traversal input with respect to the engine's
mapping convention: within each maximal run of valid mappings of the same
reference, the in-reference offsets are strictly increasing.  The second
argument carries the reference and offset of the last valid mapping seen
(`none` before the first). -/
def runsIncreasing : List (Option (Nat × Nat × Nat) × Char) → Option (Nat × Nat) → Bool
  | [], _ => true
  | p :: rest, s =>
    match p.1 with
    | none => runsIncreasing rest s
    | some (t, o, l) =>
      if o < l then
        match s with
        | some (ct, lo) =>
          (if t = ct then decide (lo < o) else true) && runsIncreasing rest (some (t, o))
        | none => runsIncreasing rest (some (t, o))
      else runsIncreasing rest s

/-- The checker state of `runsIncreasing` that corresponds to a machine
state of the traversal loop. -/
def chkSt (st : TravState) : Option (Nat × Nat) :=
  if st.curr_ref = sentinel then none else some (st.curr_ref, st.last_text_off)

/-- The loop invariant of the traversal: either no reference is current,
or the accumulated sequence has exactly `last_text_off + 1` characters,
the last offset is within the declared length, and the recorded declared
length agrees with the engine's (`tlenOf`). -/
def TravInv (tlenOf : Nat → Nat) (st : TravState) : Prop :=
  st.curr_ref = sentinel ∨
    (st.first = false ∧ st.curr_ref_seq.length = st.last_text_off + 1 ∧
     st.last_text_off < st.curr_ref_len ∧ st.curr_ref_len = tlenOf st.curr_ref)

/-- Every emitted record's sequence has exactly the declared length of
its reference. -/
def AllDeclaredLen (tlenOf : Nat → Nat) (out : List (Nat × List Char)) : Prop :=
  ∀ p ∈ out, (p.2).length = tlenOf p.1

/-! ### Option parsing: `parseInt` (lines 70-86) and line 107 -/

/-- The digit characters that `strtol` converts for the argument string:
after skipping leading whitespace and an optional sign, the maximal run
of decimal digits. -/
def strtolDigits (s : List Char) : List Char :=
  let s1 := s.dropWhile Char.isWhitespace
  let s2 : List Char :=
    match s1 with
    | '-' :: rest => rest
    | '+' :: rest => rest
    | _ => s1
  s2.takeWhile Char.isDigit

/-- The sign of the converted value. -/
def strtolSign (s : List Char) : Int :=
  match s.dropWhile Char.isWhitespace with
  | '-' :: _ => -1
  | _ => 1

/-- The numeric value of a digit run. -/
def digitsVal (ds : List Char) : Nat :=
  ds.foldl (fun a c => a * 10 + (c.toNat - 48)) 0

/-- Modelled from the C library contract of `strtol(nptr, &endPtr, 10)`
(an external dependency of `parseInt`): the converted value together with
the end position.  `strtol` always stores into a non-null `endPtr`, so
the position is always `some`; when no digits are converted the value is
`0` and the end position is the start.  Overflow clamping to
`LONG_MIN`/`LONG_MAX` is not modelled. -/
def strtol (s : List Char) : Int × Option Nat :=
  if (strtolDigits s).length = 0 then (0, some 0)
  else (strtolSign s * (digitsVal (strtolDigits s) : Int),
        some (s.length - (s.dropWhile Char.isWhitespace).length + (strtolDigits s).length))

/-- The `(int32_t)l` cast of line 80 applied to a C `long`. -/
def toInt32 (l : Int) : Int := (l + 2 ^ 31) % 2 ^ 32 - 2 ^ 31

/-- The error message of line 107. -/
def acrossErrMsg : String := "-a/--across arg must be at least 1"

/-- `parseInt` (lines 70-86): parse `optarg` with `strtol`; since the end
pointer is never null, the only failing case is `l < lower`, in which
case the error message and a usage message go to the error stream and the
function throws `1` (a non-zero process exit).  An error is modelled as
`(message written, usage written, thrown value)`. -/
def parseInt (lower : Int) (errmsg : String) (optarg : List Char) : Except (String × Bool × Nat) Int :=
  if (strtol optarg).2 ≠ none then
    if (strtol optarg).1 < lower then Except.error (errmsg, true, 1)
    else Except.ok (toInt32 (strtol optarg).1)
  else Except.error (errmsg, true, 1)

/-- The across-option call site (line 107): `parseInt(-1, ...)` with the
error message above. -/
def parseAcross (optarg : List Char) : Except (String × Bool × Nat) Int :=
  parseInt (-1) acrossErrMsg optarg

/-! ### SummaryReporter: `print_index_summary` (lines 288-330) -/

def tabS : String := "\t"

def emptyS : String := ""

def oneS : String := "1"

def zeroS : String := "0"

def lblFlags : String := "Flags"

def lblRevFlags : String := "Reverse flags"

def lblColorspace : String := "Colorspace"

def lblCompat : String := "2.0-compatible"

def lblSASample : String := "SA-Sample"

def lblOneIn : String := "1 in "

def lblFTabChars : String := "FTab-Chars"

def lblSequence : String := "Sequence-"

/-- The `Sequence-N` row of lines 325-328 for the `i`-th reference
(0-based): label numbered from 1, then name, then length with the
color-space `+1` adjustment. -/
def summarySeqRow (color : Bool) (p_refnames : List String) (plen : Nat → Nat) (i : Nat) : String :=
  lblSequence ++ toString (i + 1) ++ tabS ++ p_refnames.getD i emptyS ++ tabS
    ++ toString (plen i + (if color then 1 else 0))

/-- `print_index_summary` (lines 288-330), abstracted over the engine
metadata: each `cout ... << endl` statement contributes one output line.
`1 << offRate` is the C `int` shift, here `2 ^ offRate` (real indexes
have small `offRate`, so the 32-bit overflow of the C shift is not
modelled).

Modelled from the spec: `assert_eq(ebwt.nPat(), p_refnames.size())`
(line 323, macro from `assert_helpers.h`, not under `src/`) is a fatal
integrity check of the reference count against the metadata; its failure
is modelled as `Except.error`. -/
def print_index_summary (flags flagsr : Int) (color entireReverse : Bool)
    (offRate ftabChars : Nat) (nPat : Nat) (p_refnames : List String)
    (plen : Nat → Nat) : Except Unit (List String) :=
  if nPat = p_refnames.length then
    Except.ok (
      (lblFlags ++ tabS ++ toString (-flags)) ::
      (lblRevFlags ++ tabS ++ toString (-flagsr)) ::
      (lblColorspace ++ tabS ++ (if color then oneS else zeroS)) ::
      (lblCompat ++ tabS ++ (if entireReverse then oneS else zeroS)) ::
      (lblSASample ++ tabS ++ lblOneIn ++ toString (2 ^ offRate)) ::
      (lblFTabChars ++ tabS ++ toString ftabChars) ::
      (List.range p_refnames.length).map (summarySeqRow color p_refnames plen))
  else Except.error ()

/-! ### Lemmas about the formatter -/

/-- With a non-positive width the formatter emits the whole sequence as a
single newline-terminated line after the header. -/
lemma print_fasta_record_unwrapped (across : Int) (d s : List Char) (h : across ≤ 0) :
    print_fasta_record across d s = '>' :: d ++ '\n' :: (s ++ ['\n']) := by
  unfold print_fasta_record
  rw [if_neg (by omega)]

lemma wrapChunksGo_flatten (w : Nat) :
    ∀ (fuel : Nat) (s : List Char), s.length ≤ fuel →
      (wrapChunksGo w fuel s).flatten = s := by
  intro fuel
  induction fuel with
  | zero =>
    intro s hs
    have : s = [] := List.length_eq_zero.mp (Nat.le_zero.mp hs)
    subst this
    simp [wrapChunksGo]
  | succ n ih =>
    intro s hs
    unfold wrapChunksGo
    by_cases h : 0 < w ∧ w < s.length
    · rw [if_pos h]
      rw [List.flatten_cons]
      rw [ih (s.drop w) (by simp; omega)]
      exact List.take_append_drop w s
    · rw [if_neg h]
      by_cases h0 : s.length = 0
      · rw [if_pos h0]
        simp_all
      · rw [if_neg h0]
        simp

lemma wrapChunksGo_ne_nil (w : Nat) (fuel : Nat) (s : List Char)
    (hs : s.length ≤ fuel) (hne : s ≠ []) : wrapChunksGo w fuel s ≠ [] := by
  cases fuel with
  | zero =>
    exact absurd (List.length_eq_zero.mp (Nat.le_zero.mp hs)) hne
  | succ n =>
    unfold wrapChunksGo
    by_cases h : 0 < w ∧ w < s.length
    · rw [if_pos h]; simp
    · rw [if_neg h, if_neg (by simpa using hne)]; simp

lemma wrapChunksGo_length (w : Nat) (hw : 0 < w) :
    ∀ (fuel : Nat) (s : List Char), s.length ≤ fuel → s ≠ [] →
      (wrapChunksGo w fuel s).length = (s.length + w - 1) / w := by
  intro fuel
  induction fuel with
  | zero =>
    intro s hs hne
    exact absurd (List.length_eq_zero.mp (Nat.le_zero.mp hs)) hne
  | succ n ih =>
    intro s hs hne
    unfold wrapChunksGo
    by_cases h : 0 < w ∧ w < s.length
    · rw [if_pos h]
      have hdlen : (s.drop w).length = s.length - w := by simp
      have hdne : s.drop w ≠ [] := by
        intro hd
        rw [hd] at hdlen
        simp at hdlen
        omega
      rw [List.length_cons, ih (s.drop w) (by omega) hdne, hdlen]
      rw [show s.length + w - 1 = (s.length - w + w - 1) + w by omega,
          Nat.add_div_right _ hw]
    · rw [if_neg h, if_neg (by simpa using hne)]
      have hlen : 0 < s.length := List.length_pos.mpr hne
      have : (s.length + w - 1) / w = 1 :=
        Nat.div_eq_of_lt_le (by omega) (by omega)
      simp [this]

lemma wrapChunksGo_widths (w : Nat) (hw : 0 < w) :
    ∀ (fuel : Nat) (s : List Char), s.length ≤ fuel →
      ∀ l ∈ (wrapChunksGo w fuel s).dropLast, l.length = w := by
  intro fuel
  induction fuel with
  | zero =>
    intro s hs l hl
    have : s = [] := List.length_eq_zero.mp (Nat.le_zero.mp hs)
    subst this
    simp [wrapChunksGo] at hl
  | succ n ih =>
    intro s hs l hl
    unfold wrapChunksGo at hl
    by_cases h : 0 < w ∧ w < s.length
    · rw [if_pos h] at hl
      have hdlen : (s.drop w).length = s.length - w := by simp
      have hdne : s.drop w ≠ [] := by
        intro hd
        rw [hd] at hdlen
        simp at hdlen
        omega
      have hrest := wrapChunksGo_ne_nil w n (s.drop w) (by omega) hdne
      obtain ⟨b, bs, hb⟩ := List.exists_cons_of_ne_nil hrest
      rw [hb, List.dropLast_cons₂] at hl
      rcases List.mem_cons.mp hl with rfl | hl
      · rw [List.length_take]
        omega
      · exact ih (s.drop w) (by omega) l (by rw [hb]; exact hl)
    · rw [if_neg h] at hl
      by_cases h0 : s.length = 0
      · rw [if_pos h0] at hl; simp at hl
      · rw [if_neg h0] at hl; simp at hl

lemma wrapChunksGo_last (w : Nat) (hw : 0 < w) :
    ∀ (fuel : Nat) (s : List Char), s.length ≤ fuel → s ≠ [] →
      ∀ l, (wrapChunksGo w fuel s).getLast? = some l →
        0 < l.length ∧ l.length ≤ w := by
  intro fuel
  induction fuel with
  | zero =>
    intro s hs hne
    exact absurd (List.length_eq_zero.mp (Nat.le_zero.mp hs)) hne
  | succ n ih =>
    intro s hs hne l hl
    unfold wrapChunksGo at hl
    by_cases h : 0 < w ∧ w < s.length
    · rw [if_pos h] at hl
      have hdlen : (s.drop w).length = s.length - w := by simp
      have hdne : s.drop w ≠ [] := by
        intro hd
        rw [hd] at hdlen
        simp at hdlen
        omega
      have hrest := wrapChunksGo_ne_nil w n (s.drop w) (by omega) hdne
      obtain ⟨b, bs, hb⟩ := List.exists_cons_of_ne_nil hrest
      rw [hb, List.getLast?_cons_cons] at hl
      exact ih (s.drop w) (by omega) hdne l (by rw [hb]; exact hl)
    · rw [if_neg h, if_neg (by simpa using hne)] at hl
      simp at hl
      subst hl
      constructor
      · exact List.length_pos.mpr hne
      · omega

/-! ### Lemmas about the packed-store path -/

lemma emitChunkGo_isOk (newlines : Bool) (myacross : Nat) (cb : Nat → Nat) :
    ∀ (rem j : Nat),
      (emitChunkGo newlines myacross cb j rem).isOk = true ↔
        ∀ t, t < rem → cb (j + t) ≤ 4 := by
  intro rem
  induction rem with
  | zero =>
    intro j
    simp [emitChunkGo, Except.isOk, Except.toBool]
  | succ n ih =>
    intro j
    unfold emitChunkGo
    by_cases hc : cb j ≤ 4
    · rw [if_pos hc]
      cases hrec : emitChunkGo newlines myacross cb (j + 1) n with
      | ok rest =>
        simp only [Except.isOk, Except.toBool, true_iff]
        intro t ht
        cases t with
        | zero => simpa using hc
        | succ t' =>
          have hok : (emitChunkGo newlines myacross cb (j + 1) n).isOk = true := by
            rw [hrec]; rfl
          have := (ih (j + 1)).mp hok t' (by omega)
          rwa [show j + 1 + t' = j + (t' + 1) by omega] at this
      | error e =>
        simp only [Except.isOk, Except.toBool]
        constructor
        · intro hfalse; cases hfalse
        · intro h
          have h2 : ∀ t, t < n → cb (j + 1 + t) ≤ 4 := by
            intro t ht
            have := h (t + 1) (by omega)
            rwa [show j + (t + 1) = j + 1 + t by omega] at this
          have := (ih (j + 1)).mpr h2
          rw [hrec] at this
          cases this
    · rw [if_neg hc]
      simp only [Except.isOk, Except.toBool]
      constructor
      · intro hfalse; cases hfalse
      · intro h
        exact absurd (by simpa using h 0 (by omega)) hc

lemma refLoopGo_done (newlines : Bool) (myacross incr : Nat) (f : Nat → Nat)
    (len : Nat) (fuel i : Nat) (h : len ≤ i) :
    refLoopGo newlines myacross incr f len i fuel = Except.ok [] := by
  cases fuel with
  | zero => rfl
  | succ n =>
    unfold refLoopGo
    rw [if_neg (by omega)]

lemma refLoopGo_isOk (newlines : Bool) (myacross incr : Nat) (f : Nat → Nat)
    (len : Nat) (hincr : 0 < incr) :
    ∀ (fuel i : Nat), len ≤ i + fuel →
      ((refLoopGo newlines myacross incr f len i fuel).isOk = true ↔
        ∀ k, i ≤ k → k < len → f k ≤ 4) := by
  intro fuel
  induction fuel with
  | zero =>
    intro i hfuel
    simp only [refLoopGo, Except.isOk, Except.toBool, true_iff]
    intro k hik hk
    omega
  | succ n ih =>
    intro i hfuel
    unfold refLoopGo
    by_cases hi : i < len
    · rw [if_pos hi]
      cases hch : emitChunk newlines myacross (fun j => f (i + j)) (min incr (len - i)) with
      | error e =>
        simp only [Except.isOk, Except.toBool]
        constructor
        · intro hfalse; cases hfalse
        · intro h
          have h2 : ∀ t, t < min incr (len - i) → f (i + t) ≤ 4 := by
            intro t ht
            exact h (i + t) (by omega) (by omega)
          have := (emitChunkGo_isOk newlines myacross
            (fun j => f (i + j)) (min incr (len - i)) 0).mpr (by
              intro t ht
              simpa using h2 t ht)
          rw [emitChunk] at hch
          rw [hch] at this
          cases this
      | ok s =>
        cases hrec : refLoopGo newlines myacross incr f len (i + incr) n with
        | error e =>
          simp only [Except.isOk, Except.toBool]
          constructor
          · intro hfalse; cases hfalse
          · intro h
            have := (ih (i + incr) (by omega)).mpr (by
              intro k hik hk
              exact h k (by omega) hk)
            rw [hrec] at this
            cases this
        | ok rest =>
          simp only [Except.isOk, Except.toBool, true_iff]
          intro k hik hk
          by_cases hk2 : k < i + min incr (len - i)
          · have hok : (emitChunk newlines myacross (fun j => f (i + j))
                (min incr (len - i))).isOk = true := by
              rw [hch]; rfl
            rw [emitChunk] at hok
            have := (emitChunkGo_isOk newlines myacross
              (fun j => f (i + j)) (min incr (len - i)) 0).mp hok (k - i) (by omega)
            simpa [show 0 + (k - i) = k - i by omega, show i + (k - i) = k by omega]
              using this
          · have hok : (refLoopGo newlines myacross incr f len (i + incr) n).isOk = true := by
              rw [hrec]; rfl
            exact (ih (i + incr) (by omega)).mp hok k (by omega) hk
    · rw [if_neg hi]
      simp only [Except.isOk, Except.toBool, true_iff]
      intro k hik hk
      omega

lemma emitChunkGo_nonewlines (myacross : Nat) (cb : Nat → Nat) :
    ∀ (rem j : Nat), (∀ t, t < rem → cb (j + t) ≤ 4) →
      emitChunkGo false myacross cb j rem =
        Except.ok ((List.range' j rem).map fun k => baseChar (cb k)) := by
  intro rem
  induction rem with
  | zero => intro j _; rfl
  | succ n ih =>
    intro j h
    unfold emitChunkGo
    rw [if_pos (by simpa using h 0 (by omega))]
    rw [ih (j + 1) (by
      intro t ht
      have := h (t + 1) (by omega)
      rwa [show j + (t + 1) = j + 1 + t by omega] at this)]
    simp [List.range'_succ]

lemma refLoopGo_single_chunk (myacross incr : Nat) (f : Nat → Nat) (len fuel : Nat)
    (h1 : 0 < len) (h2 : len ≤ incr) (hfuel : 0 < fuel)
    (hok : ∀ k, k < len → f k ≤ 4) :
    refLoopGo false myacross incr f len 0 fuel =
      Except.ok (((List.range' 0 len).map fun k => baseChar (f k)) ++ ['\n']) := by
  cases fuel with
  | zero => omega
  | succ n =>
    unfold refLoopGo
    rw [if_pos (by omega)]
    rw [emitChunk, show min incr (len - 0) = len by omega]
    rw [emitChunkGo_nonewlines myacross (fun j => f (0 + j)) len 0 (by
      intro t ht
      simpa using hok t (by omega))]
    rw [refLoopGo_done false myacross incr f len n (0 + incr) (by omega)]
    simp

/-! ### Lemmas about the traversal path -/

lemma padTrailing_length (seq : List Char) (len : Nat) (h : seq.length ≤ len) :
    (padTrailing seq len).length = len := by
  unfold padTrailing
  by_cases hlt : seq.length < len
  · rw [if_pos hlt]
    simp
    omega
  · rw [if_neg hlt]
    omega

/-- Appending the first observed base of a reference at offset `textoff`
(state freshly reset by lines 246-250) yields exactly `textoff` leading
ambiguous bases followed by the base: the extra `textoff_adj++` of line
254 makes the gap-fill of lines 255-256 insert `textoff` (not
`textoff - 1`) characters. -/
lemma appendBase_first (st : TravState) (textoff : Nat) (c : Char)
    (h0 : st.first = true) (h1 : st.last_text_off = 0) (h2 : st.curr_ref_seq = [])
    (h3 : textoff + 1 < u32) :
    (appendBase st textoff c).curr_ref_seq = List.replicate textoff 'N' ++ [c] := by
  simp only [appendBase, adjustedOffset]
  rw [h0, h1, h2]
  cases textoff with
  | zero =>
    have e1 : (if (true = true ∧ 0 < 0) then (0 + 1) % u32 else 0) = 0 := by
      rw [if_neg (by simp)]
    rw [e1]
    have e2 : (0 + u32 - 0) % u32 = 0 := by
      simp [u32]
    rw [e2]
    rw [if_neg (by omega)]
    simp
  | succ o =>
    have e1 : (if (true = true ∧ 0 < o + 1) then (o + 1 + 1) % u32 else (o + 1)) = o + 2 := by
      rw [if_pos (by simp)]
      exact Nat.mod_eq_of_lt (by omega)
    rw [e1]
    have e2 : (o + 2 + u32 - 0) % u32 = o + 2 := by
      rw [show o + 2 + u32 - 0 = (o + 2) + u32 by omega, Nat.add_mod_right]
      exact Nat.mod_eq_of_lt (by omega)
    rw [e2]
    rw [if_pos (by omega)]
    rw [show o + 2 - 1 = o + 1 by omega]
    simp

/-- Appending a non-first base at offset `textoff > last_text_off`
inserts exactly `textoff - last_text_off - 1` ambiguous bases before the
base (lines 255-258). -/
lemma appendBase_next (st : TravState) (textoff : Nat) (c : Char)
    (h0 : st.first = false) (h4 : st.last_text_off < textoff) (h5 : textoff < u32) :
    (appendBase st textoff c).curr_ref_seq =
      st.curr_ref_seq ++ List.replicate (textoff - st.last_text_off - 1) 'N' ++ [c] := by
  simp only [appendBase, adjustedOffset]
  rw [h0]
  have e1 : (if (false = true ∧ 0 < textoff) then (textoff + 1) % u32 else textoff) = textoff := by
    rw [if_neg (by simp)]
  rw [e1]
  have e2 : (textoff + u32 - st.last_text_off) % u32 = textoff - st.last_text_off := by
    rw [show textoff + u32 - st.last_text_off = (textoff - st.last_text_off) + u32 by omega,
        Nat.add_mod_right]
    exact Nat.mod_eq_of_lt (by omega)
  rw [e2]
  by_cases hd : 1 < textoff - st.last_text_off
  · rw [if_pos hd]
  · rw [if_neg hd]
    rw [show textoff - st.last_text_off - 1 = 0 by omega]
    simp

lemma appendBase_curr_ref (st : TravState) (textoff : Nat) (c : Char) :
    (appendBase st textoff c).curr_ref = st.curr_ref := rfl

lemma appendBase_curr_ref_len (st : TravState) (textoff : Nat) (c : Char) :
    (appendBase st textoff c).curr_ref_len = st.curr_ref_len := rfl

lemma appendBase_last_text_off (st : TravState) (textoff : Nat) (c : Char) :
    (appendBase st textoff c).last_text_off = textoff := rfl

lemma appendBase_first_eq_false (st : TravState) (textoff : Nat) (c : Char) :
    (appendBase st textoff c).first = false := rfl

lemma travStep_none (st : TravState) (out : List (Nat × List Char)) (c : Char) :
    travStep st out none c = (st, out) := rfl

lemma travStep_some (st : TravState) (out : List (Nat × List Char))
    (t o l : Nat) (c : Char) :
    travStep st out (some (t, o, l)) c =
      if o < l then
        if st.curr_ref = t then (appendBase st o c, out)
        else (appendBase (startedState t l) o c,
          if st.curr_ref = sentinel then out else out ++ [flushRecord st])
      else (st, out) := rfl

lemma travLoop_cons (m : Option (Nat × Nat × Nat)) (c : Char)
    (rest : List (Option (Nat × Nat × Nat) × Char)) (st : TravState)
    (out : List (Nat × List Char)) :
    travLoop ((m, c) :: rest) st out =
      travLoop rest (travStep st out m c).1 (travStep st out m c).2 := rfl

/-- A reference ordinal that never occurs in a valid mapping of the input
never becomes current and is never flushed. -/
lemma travLoop_unobserved (r : Nat) :
    ∀ (input : List (Option (Nat × Nat × Nat) × Char)) (st : TravState)
      (out : List (Nat × List Char)),
      r ∉ observedRefs input → st.curr_ref ≠ r → (∀ p ∈ out, p.1 ≠ r) →
      (travLoop input st out).1.curr_ref ≠ r ∧
        ∀ p ∈ (travLoop input st out).2, p.1 ≠ r := by
  intro input
  induction input with
  | nil =>
    intro st out _ h2 h3
    exact ⟨h2, h3⟩
  | cons q rest ih =>
    intro st out h1 h2 h3
    obtain ⟨m, c⟩ := q
    rw [travLoop_cons]
    cases m with
    | none =>
      rw [travStep_none]
      apply ih _ _ _ h2 h3
      simpa [observedRefs] using h1
    | some v =>
      obtain ⟨t, o, l⟩ := v
      rw [travStep_some]
      by_cases ho : o < l
      · rw [if_pos ho]
        have hobs : observedRefs ((some (t, o, l), c) :: rest) = t :: observedRefs rest := by
          simp [observedRefs, ho]
        rw [hobs] at h1
        have hrt : r ≠ t := fun h => h1 (by rw [h]; exact List.mem_cons_self _ _)
        have hrrest : r ∉ observedRefs rest := fun h => h1 (List.mem_cons_of_mem _ h)
        by_cases hct : st.curr_ref = t
        · rw [if_pos hct]
          apply ih _ _ hrrest _ h3
          rw [appendBase_curr_ref, hct]
          exact fun h => hrt h.symm
        · rw [if_neg hct]
          apply ih
          · exact hrrest
          · rw [appendBase_curr_ref]
            show (startedState t l).curr_ref ≠ r
            exact fun h => hrt (congrArg id h).symm
          · by_cases hs : st.curr_ref = sentinel
            · rw [if_pos hs]
              exact h3
            · rw [if_neg hs]
              intro p hp
              rcases List.mem_append.mp hp with hp | hp
              · exact h3 p hp
              · have : p = flushRecord st := by simpa using hp
                rw [this]
                exact h2
      · rw [if_neg ho]
        apply ih _ _ _ h2 h3
        simpa [observedRefs, ho] using h1

/-- The sentinel is never a valid `uint32_t` offset bound's strict upper
neighbour: convenience bound. -/
lemma sentinel_lt_u32 : sentinel < u32 := by
  unfold sentinel u32
  omega

/-- Invariant preservation for the traversal loop: on well-formed input
(per-reference declared lengths consistent and strictly increasing
offsets within each run of a reference), the loop keeps `TravInv` and
every flushed record has exactly the declared length of its reference. -/
lemma travLoop_declared_len (tlenOf : Nat → Nat) :
    ∀ (input : List (Option (Nat × Nat × Nat) × Char)) (st : TravState)
      (out : List (Nat × List Char)),
      (∀ p ∈ input, ∀ t o l, p.1 = some (t, o, l) → o < l →
        t ≠ sentinel ∧ l = tlenOf t ∧ l ≤ sentinel) →
      runsIncreasing input (chkSt st) = true →
      TravInv tlenOf st → AllDeclaredLen tlenOf out →
      TravInv tlenOf (travLoop input st out).1 ∧
        AllDeclaredLen tlenOf (travLoop input st out).2 := by
  intro input
  induction input with
  | nil =>
    intro st out _ _ hinv hout
    exact ⟨hinv, hout⟩
  | cons q rest ih =>
    intro st out hwf hrun hinv hout
    obtain ⟨m, c⟩ := q
    rw [travLoop_cons]
    have hwfrest : ∀ p ∈ rest, ∀ t o l, p.1 = some (t, o, l) → o < l →
        t ≠ sentinel ∧ l = tlenOf t ∧ l ≤ sentinel :=
      fun p hp => hwf p (List.mem_cons_of_mem _ hp)
    cases m with
    | none =>
      rw [travStep_none]
      apply ih _ _ hwfrest _ hinv hout
      simpa [runsIncreasing] using hrun
    | some v =>
      obtain ⟨t, o, l⟩ := v
      rw [travStep_some]
      by_cases ho : o < l
      · rw [if_pos ho]
        obtain ⟨ht, hl, hls⟩ := hwf (some (t, o, l), c) (List.mem_cons_self _ _) t o l rfl ho
        have hou32 : o < u32 := by
          have := sentinel_lt_u32
          omega
        by_cases hct : st.curr_ref = t
        · rw [if_pos hct]
          have hinv2 := hinv.resolve_left (by rw [hct]; exact ht)
          obtain ⟨hfirst, hlen, hlast, hclen⟩ := hinv2
          have hchk : chkSt st = some (t, st.last_text_off) := by
            rw [chkSt, if_neg (by rw [hct]; exact ht), hct]
          rw [hchk] at hrun
          have hrun2 : st.last_text_off < o ∧ runsIncreasing rest (some (t, o)) = true := by
            simpa [runsIncreasing, ho] using hrun
          apply ih
          · exact hwfrest
          · have : chkSt (appendBase st o c) = some (t, o) := by
              rw [chkSt, if_neg (by rw [appendBase_curr_ref, hct]; exact ht),
                  appendBase_curr_ref, appendBase_last_text_off, hct]
            rw [this]
            exact hrun2.2
          · right
            refine ⟨appendBase_first_eq_false st o c, ?_, ?_, ?_⟩
            · rw [appendBase_next st o c hfirst hrun2.1 hou32,
                  appendBase_last_text_off]
              simp [hlen]
              omega
            · rw [appendBase_last_text_off, appendBase_curr_ref_len]
              rw [hclen, hct, ← hl]
              exact ho
            · rw [appendBase_curr_ref_len, appendBase_curr_ref]
              exact hclen
          · exact hout
        · rw [if_neg hct]
          have hrun2 : runsIncreasing rest (some (t, o)) = true := by
            by_cases hs : st.curr_ref = sentinel
            · have hchk : chkSt st = none := by rw [chkSt, if_pos hs]
              rw [hchk] at hrun
              simpa [runsIncreasing, ho] using hrun
            · have hchk : chkSt st = some (st.curr_ref, st.last_text_off) := by
                rw [chkSt, if_neg hs]
              rw [hchk] at hrun
              have : (t = st.curr_ref) = False := by
                simp
                exact fun h => hct h.symm
              simp [runsIncreasing, ho, this] at hrun
              exact hrun
          apply ih
          · exact hwfrest
          · have : chkSt (appendBase (startedState t l) o c) = some (t, o) := by
              rw [chkSt, if_neg (by rw [appendBase_curr_ref]; exact ht),
                  appendBase_curr_ref, appendBase_last_text_off]
              rfl
            rw [this]
            exact hrun2
          · right
            refine ⟨appendBase_first_eq_false _ o c, ?_, ?_, ?_⟩
            · show (appendBase (startedState t l) o c).curr_ref_seq.length =
                (appendBase (startedState t l) o c).last_text_off + 1
              rw [appendBase_last_text_off,
                  appendBase_first (startedState t l) o c rfl rfl rfl
                    (by have := sentinel_lt_u32; omega)]
              simp
            · rw [appendBase_last_text_off, appendBase_curr_ref_len]
              show o < (startedState t l).curr_ref_len
              exact ho
            · rw [appendBase_curr_ref_len, appendBase_curr_ref]
              show (startedState t l).curr_ref_len = tlenOf (startedState t l).curr_ref
              exact hl
          · by_cases hs : st.curr_ref = sentinel
            · rw [if_pos hs]
              exact hout
            · rw [if_neg hs]
              intro p hp
              rcases List.mem_append.mp hp with hp | hp
              · exact hout p hp
              · have hpf : p = flushRecord st := by simpa using hp
                have hinv2 := hinv.resolve_left hs
                obtain ⟨_, hlen, hlast, hclen⟩ := hinv2
                rw [hpf]
                show (padTrailing st.curr_ref_seq st.curr_ref_len).length = tlenOf st.curr_ref
                rw [padTrailing_length st.curr_ref_seq st.curr_ref_len (by omega)]
                exact hclen
      · rw [if_neg ho]
        apply ih _ _ hwfrest _ hinv hout
        simpa [runsIncreasing, ho] using hrun

/-! ### Lemmas about option parsing -/

/-- `strtol` always sets its end pointer: the `endPtr != NULL` test of
line 74 is always true. -/
lemma strtol_endPtr (s : List Char) : (strtol s).2 ≠ none := by
  unfold strtol
  by_cases h : (strtolDigits s).length = 0
  · rw [if_pos h]
    simp
  · rw [if_neg h]
    simp

/-- Since the end-pointer test always passes, `parseInt` errors exactly
when the converted value is below `lower`. -/
lemma parseInt_eq (lower : Int) (msg : String) (s : List Char) :
    parseInt lower msg s =
      if (strtol s).1 < lower then Except.error (msg, true, 1)
      else Except.ok (toInt32 (strtol s).1) := by
  unfold parseInt
  rw [if_pos (strtol_endPtr s)]

/-- When `strtol` converts no digits, its value is `0`. -/
lemma strtol_no_conversion (s : List Char) (h : strtolDigits s = []) :
    strtol s = (0, some 0) := by
  unfold strtol
  rw [if_pos (by rw [h]; rfl)]

/-! ### Claim theorems -/

/-- Claim C3: in the traversal path, when a reference becomes current and
its very first mapped position has in-reference offset `3` (nonzero), the
adjusted offset is incremented by exactly one (`3 + 1`), and the total
leading padding prepended before that first base is exactly `3` ambiguous
bases, not `2` or `4`. -/
theorem claim_C3 (st : TravState) (out : List (Nat × List Char)) (t l : Nat)
    (c : Char) (h1 : st.curr_ref ≠ t) (h2 : 3 < l) :
    adjustedOffset true 3 = 3 + 1 ∧
    (travStep st out (some (t, 3, l)) c).1.curr_ref_seq =
      List.replicate 3 'N' ++ [c] := by
  constructor
  · decide
  · rw [travStep_some, if_pos h2, if_neg h1]
    show (appendBase (startedState t l) 3 c).curr_ref_seq = _
    rw [appendBase_first (startedState t l) 3 c rfl rfl rfl (by unfold u32; omega)]

/-- Witness for C3 at a concrete input: fresh state, first mapped offset
`3`, declared length `5`. -/
theorem claim_C3_witness :
    adjustedOffset true 3 = 3 + 1 ∧
    (travStep initTravState [] (some (0, 3, 5)) 'A').1.curr_ref_seq =
      List.replicate 3 'N' ++ ['A'] :=
  claim_C3 initTravState [] 0 5 'A' (by decide) (by decide)

/-- Claim C4: in the traversal path, for a non-first mapped position of
the current reference whose offset exceeds the last offset by more than
one, exactly `offset - lastOffset - 1` ambiguous bases are inserted
before the current base. -/
theorem claim_C4 (st : TravState) (out : List (Nat × List Char)) (t o l : Nat)
    (c : Char) (h1 : st.curr_ref = t) (h2 : st.first = false) (h3 : o < l)
    (h4 : st.last_text_off + 1 < o) (h5 : l ≤ sentinel) :
    (travStep st out (some (t, o, l)) c).1.curr_ref_seq =
      st.curr_ref_seq ++ List.replicate (o - st.last_text_off - 1) 'N' ++ [c] := by
  rw [travStep_some, if_pos h3, if_pos h1]
  show (appendBase st o c).curr_ref_seq = _
  exact appendBase_next st o c h2 (by omega) (by have := sentinel_lt_u32; omega)

/-- Witness for C4 at the concrete offsets of the claim: previous offset
`5`, current offset `9`, `isFirstBase = false`: exactly `3` ambiguous
bases are inserted. -/
theorem claim_C4_witness :
    (travStep ⟨0, ['A'], 20, 5, false⟩ [] (some (0, 9, 20)) 'G').1.curr_ref_seq =
      ['A'] ++ List.replicate 3 'N' ++ ['G'] :=
  claim_C4 ⟨0, ['A'], 20, 5, false⟩ [] 0 9 20 'G' rfl rfl (by decide)
    (by decide) (by decide)

/-- Claim C1 is false on the code: a reference none of whose positions
has a valid mapping is never flushed at all.  With a single position that
has no mapping, the sole reference (ordinal 0) gets no record; with two
references of which ordinal 1 is wholly unmapped, only ordinal 0 is
emitted.  The claim demands a record with sequence `'N'` repeated the
declared length for such references. -/
theorem claim_C1_counterexample :
    print_index_sequences [(none, 'A')] 1 = [] ∧
    print_index_sequences [(some (0, 0, 2), 'A')] 2 = [(0, ['A', 'N'])] := by
  constructor
  · decide
  · decide

/-- Claim C1 amended: in the traversal path, a reference with zero
observed bases is not emitted at all — every emitted record's ordinal
occurs in some valid mapping of the traversal input. -/
theorem claim_C1_amended (input : List (Option (Nat × Nat × Nat) × Char))
    (numRefs r : Nat) (hr : r ≠ sentinel) (hobs : r ∉ observedRefs input) :
    ∀ p ∈ print_index_sequences input numRefs, p.1 ≠ r := by
  have h := travLoop_unobserved r input initTravState []
    hobs (fun hh => hr hh.symm) (by intro p hp; cases hp)
  intro p hp
  simp only [print_index_sequences] at hp
  by_cases hf : (travLoop input initTravState []).1.curr_ref < numRefs
  · rw [if_pos hf] at hp
    rcases List.mem_append.mp hp with hp | hp
    · exact h.2 p hp
    · have hpf : p = flushRecord (travLoop input initTravState []).1 := by
        simpa using hp
      rw [hpf]
      exact h.1
  · rw [if_neg hf] at hp
    exact h.2 p hp

/-- Witness for the amended C1: in the two-reference scenario, the record
the original claim demands for the unobserved reference 1 is absent. -/
theorem claim_C1_witness :
    ((1 : Nat), List.replicate 2 'N') ∉ print_index_sequences [(some (0, 0, 2), 'A')] 2 :=
  fun hmem =>
    claim_C1_amended [(some (0, 0, 2), 'A')] 2 1 (by decide) (by decide) _ hmem rfl

/-- Claim C2 is false as stated: with every mapped in-reference offset
(`2`) strictly below the declared length (`3`), but the same offset
observed twice, the flushed sequence has length `4 ≠ 3`. -/
theorem claim_C2_counterexample :
    print_index_sequences [(some (0, 2, 3), 'A'), (some (0, 2, 3), 'C')] 1 =
      [(0, ['N', 'N', 'A', 'C'])] ∧
    (['N', 'N', 'A', 'C'] : List Char).length ≠ 3 := by
  constructor
  · decide
  · decide

/-- Claim C2 amended: if, in addition, the in-reference offsets are
strictly increasing within each run of a reference and the declared
lengths are consistent (`tlenOf`) and within `uint32_t` range, then every
record flushed by the traversal path has exactly the declared length of
its reference. -/
theorem claim_C2_amended (input : List (Option (Nat × Nat × Nat) × Char))
    (numRefs : Nat) (tlenOf : Nat → Nat)
    (hwf : ∀ p ∈ input, ∀ t o l, p.1 = some (t, o, l) → o < l →
      t ≠ sentinel ∧ l = tlenOf t ∧ l ≤ sentinel)
    (hrun : runsIncreasing input none = true)
    (hnum : numRefs ≤ sentinel) :
    ∀ p ∈ print_index_sequences input numRefs, (p.2).length = tlenOf p.1 := by
  have hchk0 : chkSt initTravState = none := by
    have hcs : initTravState.curr_ref = sentinel := rfl
    rw [chkSt, if_pos hcs]
  have h := travLoop_declared_len tlenOf input initTravState []
    hwf (by rw [hchk0]; exact hrun) (Or.inl rfl) (by intro p hp; cases hp)
  intro p hp
  simp only [print_index_sequences] at hp
  by_cases hf : (travLoop input initTravState []).1.curr_ref < numRefs
  · rw [if_pos hf] at hp
    rcases List.mem_append.mp hp with hp | hp
    · exact h.2 p hp
    · have hpf : p = flushRecord (travLoop input initTravState []).1 := by
        simpa using hp
      have hinv := h.1.resolve_left (by
        intro hs
        rw [hs] at hf
        unfold sentinel at hf hnum
        omega)
      obtain ⟨_, hlen, hlast, hclen⟩ := hinv
      rw [hpf]
      show (padTrailing _ _).length = tlenOf _
      rw [padTrailing_length _ _ (by omega)]
      exact hclen
  · rw [if_neg hf] at hp
    exact h.2 p hp

/-- Witness for the amended C2: one reference of declared length `2` with
one observed base at offset `0`; the flushed record has length exactly
`2`. -/
theorem claim_C2_witness : ((0 : Nat), ['A', 'N']).2.length = 2 := by
  have hmem : ((0 : Nat), ['A', 'N']) ∈ print_index_sequences [(some (0, 0, 2), 'A')] 1 := by
    decide
  exact claim_C2_amended [(some (0, 0, 2), 'A')] 1 (fun _ => 2)
    (by
      intro p hp t o l hpe ho
      have hpeq : p = (some ((0 : Nat), (0 : Nat), (2 : Nat)), 'A') := by simpa using hp
      subst hpeq
      have h3 : some ((0 : Nat), (0 : Nat), (2 : Nat)) = some (t, o, l) := hpe
      injection h3 with h4
      injection h4 with ht h5
      injection h5 with ho2 hl2
      subst ht
      subst ho2
      subst hl2
      exact ⟨by decide, rfl, by decide⟩)
    (by decide) (by decide) _ hmem

/-- Claim C6: `print_fasta_record` with sequence `ACGTACGTAC` and width
`4` emits the header and then exactly the lines `ACGT`, `ACGT`, `AC`,
each newline-terminated, with no trailing blank line; and in general, for
every nonempty sequence and width `w > 0` the body is the chunk list
joined with newlines, having `ceil(len/w)` lines that are all of width
`w` except a possibly shorter (but nonempty) final line. -/
theorem claim_C6 :
    (∀ d : List Char,
      print_fasta_record 4 d ['A', 'C', 'G', 'T', 'A', 'C', 'G', 'T', 'A', 'C'] =
        '>' :: d ++ '\n' :: ('A' :: 'C' :: 'G' :: 'T' :: '\n' ::
          'A' :: 'C' :: 'G' :: 'T' :: '\n' :: 'A' :: 'C' :: '\n' :: [])) ∧
    (∀ (w : Int) (d s : List Char), 0 < w → s ≠ [] →
      print_fasta_record w d s =
        '>' :: d ++ '\n' :: ((wrapChunks w.toNat s).map (fun l => l ++ ['\n'])).flatten ∧
      (wrapChunks w.toNat s).flatten = s ∧
      (wrapChunks w.toNat s).length = (s.length + w.toNat - 1) / w.toNat ∧
      (∀ l ∈ (wrapChunks w.toNat s).dropLast, l.length = w.toNat) ∧
      (∀ l, (wrapChunks w.toNat s).getLast? = some l →
        0 < l.length ∧ l.length ≤ w.toNat)) := by
  constructor
  · intro d
    simp only [print_fasta_record]
    rw [if_pos (by decide)]
    have hw : ((wrapChunks ((4 : Int).toNat)
        ['A', 'C', 'G', 'T', 'A', 'C', 'G', 'T', 'A', 'C']).map
          (fun l => l ++ ['\n'])).flatten =
        'A' :: 'C' :: 'G' :: 'T' :: '\n' ::
          'A' :: 'C' :: 'G' :: 'T' :: '\n' :: 'A' :: 'C' :: '\n' :: [] := by
      decide
    rw [hw]
  · intro w d s hw hs
    have hwn : 0 < w.toNat := by omega
    refine ⟨?_, ?_, ?_, ?_, ?_⟩
    · simp only [print_fasta_record]
      rw [if_pos hw]
    · exact wrapChunksGo_flatten w.toNat s.length s (le_refl _)
    · exact wrapChunksGo_length w.toNat hwn s.length s (le_refl _) hs
    · exact wrapChunksGo_widths w.toNat hwn s.length s (le_refl _)
    · exact wrapChunksGo_last w.toNat hwn s.length s (le_refl _) hs

/-- Witness for C6: the concrete part at an empty defline, and the
general part at width `4` on a three-character sequence (one line). -/
theorem claim_C6_witness :
    print_fasta_record 4 [] ['A', 'C', 'G', 'T', 'A', 'C', 'G', 'T', 'A', 'C'] =
      '>' :: '\n' :: ('A' :: 'C' :: 'G' :: 'T' :: '\n' ::
        'A' :: 'C' :: 'G' :: 'T' :: '\n' :: 'A' :: 'C' :: '\n' :: []) ∧
    (wrapChunks ((4 : Int).toNat) ['A', 'B', 'C']).length = 1 :=
  ⟨claim_C6.1 [],
   (claim_C6.2 4 [] ['A', 'B', 'C'] (by decide) (by decide)).2.2.1⟩

lemma emitChunkGo_const0 (myacross : Nat) (cb : Nat → Nat) (hcb : ∀ k, cb k = 0) :
    ∀ (rem j : Nat), emitChunkGo false myacross cb j rem =
      Except.ok (List.replicate rem 'A') := by
  intro rem
  induction rem with
  | zero => intro j; rfl
  | succ n ih =>
    intro j
    unfold emitChunkGo
    rw [if_pos (by rw [hcb j]; omega)]
    rw [ih (j + 1), hcb j]
    simp [List.replicate_succ, baseChar]

lemma map_fun_const (l : List Nat) (b : Char) :
    l.map (fun _ => b) = List.replicate l.length b := by
  induction l with
  | nil => rfl
  | cons a t ih => simp [ih, List.replicate_succ]

/-- When the reference spans exactly two decode windows, the body is the
two decoded chunks, each followed by the per-chunk newline of line 168 —
even with `newlines = false` (width `0` or negative). -/
lemma refLoopGo_two_chunks (m incr len : Nat) (f : Nat → Nat) (fuel : Nat)
    (hin : incr < len) (hlen : len ≤ incr + incr) (hfuel : 1 < fuel)
    (hok : ∀ k, k < len → f k ≤ 4) :
    refLoopGo false m incr f len 0 fuel =
      Except.ok ((((List.range' 0 incr).map fun k => baseChar (f (0 + k))) ++ '\n' ::
        (((List.range' 0 (len - incr)).map fun k => baseChar (f (incr + k))) ++ '\n' :: []))) := by
  cases fuel with
  | zero => omega
  | succ n =>
    cases n with
    | zero => omega
    | succ n2 =>
      conv_lhs => unfold refLoopGo
      rw [if_pos (show (0 : Nat) < len by omega)]
      rw [show min incr (len - 0) = incr from by omega]
      rw [emitChunk, emitChunkGo_nonewlines m (fun j => f (0 + j)) incr 0
        (by intro t ht; show f (0 + (0 + t)) ≤ 4; exact hok (0 + (0 + t)) (by omega))]
      rw [show (0 : Nat) + incr = incr from by omega]
      conv_lhs => unfold refLoopGo
      rw [if_pos hin]
      rw [show min incr (len - incr) = len - incr from by omega]
      rw [emitChunk, emitChunkGo_nonewlines m (fun j => f (incr + j)) (len - incr) 0
        (by intro t ht; show f (incr + (0 + t)) ≤ 4; exact hok (incr + (0 + t)) (by omega))]
      rw [refLoopGo_done false m incr f len n2 (incr + incr) (by omega)]

/-- The header-prefixing wrapper of lines 128-130 applied to the decode
loop's result. -/
def okHeader (name : List Char) (r : Except Unit (List Char)) : Except Unit (List Char) :=
  match r with
  | Except.error e => Except.error e
  | Except.ok body => Except.ok ('>' :: name ++ '\n' :: body)

lemma okHeader_ok (name body : List Char) :
    okHeader name (Except.ok body) = Except.ok ('>' :: name ++ '\n' :: body) := rfl

lemma print_ref_sequence_unwrapped_eq (stretch : Nat → Nat → Nat)
    (name : List Char) (refi len : Nat) :
    print_ref_sequence 0 stretch name refi len =
      okHeader name (refLoopGo false 60 60000 (fun k => stretch refi k) len 0 len) := rfl

/-- Claim C5 is false for the packed-store path: with width `0`
(unwrapped) and a reference of `60001` bases, the decode loop emits a
newline after each `60000`-base window, so the sequence body spans two
lines (`3` newlines in total including the header's), not one. -/
theorem claim_C5_counterexample :
    print_ref_sequence 0 (fun _ _ => 0) [] 0 60001 =
      Except.ok ('>' :: '\n' :: (List.replicate 60000 'A' ++ '\n' :: 'A' :: '\n' :: [])) ∧
    (List.replicate 60000 'A' ++ '\n' :: 'A' :: '\n' :: ([] : List Char)).count '\n' = 2 := by
  constructor
  · rw [print_ref_sequence_unwrapped_eq]
    rw [refLoopGo_two_chunks 60 60000 60001 (fun k => (0 : Nat)) 60001
      (by norm_num) (by norm_num) (by norm_num) (fun k hk => by norm_num)]
    rw [show ((List.range' 0 60000).map fun k => baseChar ((fun _ => (0 : Nat)) (0 + k))) =
        List.replicate 60000 'A' from by
          rw [show (fun k => baseChar ((fun _ => (0 : Nat)) (0 + k))) = (fun _ : Nat => 'A') from
            rfl]
          rw [map_fun_const, List.length_range']]
    rw [show ((List.range' 0 (60001 - 60000)).map fun k =>
        baseChar ((fun _ => (0 : Nat)) (60000 + k))) = ('A' :: []) from rfl]
    rw [show (('A' :: []) ++ '\n' :: ([] : List Char)) = 'A' :: '\n' :: [] from rfl]
    rw [okHeader_ok]
    rw [List.singleton_append]
  · rw [List.count_append]
    rw [List.count_replicate]
    decide

lemma print_ref_sequence_nonpos (across : Int) (h : across ≤ 0)
    (stretch : Nat → Nat → Nat) (name : List Char) (refi len : Nat) :
    print_ref_sequence across stretch name refi len =
      okHeader name (refLoopGo false 60 60000 (fun k => stretch refi k) len 0 len) := by
  simp only [print_ref_sequence, okHeader]
  rw [decide_eq_false (show ¬ (0 < across) by omega)]
  rw [if_neg (show ¬ (0 < across) by omega)]

/-- Claim C5 amended: with a non-positive width, the formatter emits the
whole sequence on one line for every length; the packed-store path does
so only for references of at most one decode window (`60000` bases) — it
emits a newline after every window, so longer references still get
internal line breaks (see the counterexample). -/
theorem claim_C5_amended (across : Int) (h : across ≤ 0) :
    (∀ d s : List Char, print_fasta_record across d s = '>' :: d ++ '\n' :: (s ++ ['\n'])) ∧
    (∀ (stretch : Nat → Nat → Nat) (name : List Char) (refi len : Nat),
      0 < len → len ≤ 60000 → (∀ k, k < len → stretch refi k ≤ 4) →
      print_ref_sequence across stretch name refi len =
        Except.ok ('>' :: name ++ '\n' ::
          (((List.range' 0 len).map fun k => baseChar (stretch refi k)) ++ ['\n']))) := by
  constructor
  · intro d s
    exact print_fasta_record_unwrapped across d s h
  · intro stretch name refi len h1 h2 hok
    rw [print_ref_sequence_nonpos across h]
    rw [refLoopGo_single_chunk 60 60000 (fun k => stretch refi k) len len h1 h2 h1
      (fun k hk => hok k hk)]
    rw [okHeader_ok]

/-- Witness for the amended C5 at width `0`: a two-base record for the
formatter and a three-base reference for the packed path. -/
theorem claim_C5_witness :
    print_fasta_record 0 ['d'] ['A', 'C'] = '>' :: 'd' :: '\n' :: 'A' :: 'C' :: '\n' :: [] ∧
    print_ref_sequence 0 (fun _ _ => 0) ['n'] 0 3 =
      Except.ok ('>' :: 'n' :: '\n' :: 'A' :: 'A' :: 'A' :: '\n' :: []) := by
  constructor
  · exact (claim_C5_amended 0 (by decide)).1 ['d'] ['A', 'C']
  · exact (claim_C5_amended 0 (by decide)).2 (fun _ _ => 0) ['n'] 0 3 (by decide) (by decide)
      (fun k hk => Nat.zero_le 4)

/-- Claim C9: the packed-store path succeeds exactly when every decoded
symbol consumed from the stretch lies in `0..4`; a symbol outside that
range makes the whole run abort (error) instead of being emitted, and the
in-range symbols map to `A`, `C`, `G`, `T`, `N`. -/
theorem claim_C9 (across : Int) (stretch : Nat → Nat → Nat) (name : List Char)
    (refi len : Nat) :
    ((print_ref_sequence across stretch name refi len).isOk = true ↔
      ∀ j, j < len → stretch refi j ≤ 4) ∧
    (baseChar 0 = 'A' ∧ baseChar 1 = 'C' ∧ baseChar 2 = 'G' ∧ baseChar 3 = 'T' ∧
      baseChar 4 = 'N') := by
  refine ⟨?_, by decide, by decide, by decide, by decide, by decide⟩
  simp only [print_ref_sequence]
  have hincr : 0 < (if 0 < across then across.toNat else 60) * 1000 := by
    by_cases hc : 0 < across
    · rw [if_pos hc]
      have : 0 < across.toNat := by omega
      omega
    · rw [if_neg hc]
      omega
  have hiff := refLoopGo_isOk (decide (0 < across))
    (if 0 < across then across.toNat else 60)
    ((if 0 < across then across.toNat else 60) * 1000)
    (fun k => stretch refi k) len hincr len 0 (by omega)
  cases hr : refLoopGo (decide (0 < across)) (if 0 < across then across.toNat else 60)
      ((if 0 < across then across.toNat else 60) * 1000)
      (fun k => stretch refi k) len 0 len with
  | error e =>
    rw [hr] at hiff
    constructor
    · intro hcontra
      simp [Except.isOk, Except.toBool] at hcontra
    · intro hall
      have := hiff.mpr (fun k _ hk => hall k hk)
      simp [Except.isOk, Except.toBool] at this
  | ok body =>
    rw [hr] at hiff
    constructor
    · intro _ j hj
      exact hiff.mp rfl j (by omega) hj
    · intro _
      rfl

/-- Witness for C9: a three-base reference whose symbols are all `0`
decodes successfully. -/
theorem claim_C9_witness :
    (print_ref_sequence 60 (fun _ _ => 0) [] 0 3).isOk = true :=
  (claim_C9 60 (fun _ _ => 0) [] 0 3).1.mpr (fun j hj => by omega)

/-- Claim C7: with the lower bound `-1` that line 107 passes, a width
argument whose converted value is below the bound makes the parser write
the error message plus a usage message and throw `1` (non-zero exit),
while every converted value at or above the bound is accepted and the run
proceeds with that width (cast to `int32_t`). -/
theorem claim_C7 (s : List Char) :
    ((strtol s).1 < -1 → parseAcross s = Except.error (acrossErrMsg, true, 1)) ∧
    (-1 ≤ (strtol s).1 → parseAcross s = Except.ok (toInt32 (strtol s).1)) := by
  constructor
  · intro h
    rw [parseAcross, parseInt_eq]
    rw [if_pos h]
  · intro h
    rw [parseAcross, parseInt_eq]
    rw [if_neg (by omega)]

/-- Witness for C7: `-5` is rejected with the message, usage output and
exit code `1`; `60` is accepted. -/
theorem claim_C7_witness :
    parseAcross ['-', '5'] = Except.error (acrossErrMsg, true, 1) ∧
    parseAcross ['6', '0'] = Except.ok 60 := by
  constructor
  · exact (claim_C7 ['-', '5']).1 (by decide)
  · have h2 : toInt32 (strtol ['6', '0']).1 = 60 := by decide
    rw [(claim_C7 ['6', '0']).2 (by decide), h2]

/-- Claim C10: when `strtol` converts no digits from the width argument,
`parseInt` does not report a configuration error: the end pointer is
always set, the converted value is `0`, `0` is not below the lower bound
`-1`, so the argument is silently accepted as width `0` — which means
unwrapped output — and the run proceeds. -/
theorem claim_C10 (s : List Char) (h : strtolDigits s = []) :
    parseAcross s = Except.ok 0 ∧
    (∀ d q : List Char, print_fasta_record 0 d q = '>' :: d ++ '\n' :: (q ++ ['\n'])) := by
  constructor
  · rw [parseAcross, parseInt_eq]
    rw [strtol_no_conversion s h]
    norm_num [toInt32]
  · intro d q
    exact print_fasta_record_unwrapped 0 d q (by omega)

/-- Witness for C10: the wholly non-numeric argument string `abc` is
accepted as width `0`. -/
theorem claim_C10_witness : parseAcross ['a', 'b', 'c'] = Except.ok 0 :=
  (claim_C10 ['a', 'b', 'c'] (by decide)).1

lemma getElem?_cons6 {α : Type} (a b c d e f : α) (rest : List α) (n : Nat) :
    (a :: b :: c :: d :: e :: f :: rest)[6 + n]? = rest[n]? := by
  rw [show 6 + n = n + 1 + 1 + 1 + 1 + 1 + 1 from by omega]
  simp [List.getElem?_cons_succ]

/-- Claim C8: when the engine's reference count matches the metadata, the
summary is the fixed rows `Flags`, `Reverse flags`, `Colorspace`,
`2.0-compatible`, `SA-Sample` (as `1 in 2^offRate`), `FTab-Chars`, in
that order, followed by one `Sequence-N` row per reference (`N` from 1,
ordinal order) with the name and the length adjusted by `+1` exactly when
the index is colorspace. -/
theorem claim_C8 (flags flagsr : Int) (color entireReverse : Bool)
    (offRate ftabChars nPat : Nat) (names : List String) (plen : Nat → Nat)
    (h : nPat = names.length) :
    ∃ ls, print_index_summary flags flagsr color entireReverse offRate ftabChars
        nPat names plen = Except.ok ls ∧
      ls.length = 6 + names.length ∧
      ls.take 6 = [lblFlags ++ tabS ++ toString (-flags),
        lblRevFlags ++ tabS ++ toString (-flagsr),
        lblColorspace ++ tabS ++ (if color then oneS else zeroS),
        lblCompat ++ tabS ++ (if entireReverse then oneS else zeroS),
        lblSASample ++ tabS ++ lblOneIn ++ toString (2 ^ offRate),
        lblFTabChars ++ tabS ++ toString ftabChars] ∧
      ∀ i, i < names.length →
        ls[6 + i]? = some (lblSequence ++ toString (i + 1) ++ tabS ++
          names.getD i emptyS ++ tabS ++ toString (plen i + (if color then 1 else 0))) := by
  refine ⟨(lblFlags ++ tabS ++ toString (-flags)) ::
      (lblRevFlags ++ tabS ++ toString (-flagsr)) ::
      (lblColorspace ++ tabS ++ (if color then oneS else zeroS)) ::
      (lblCompat ++ tabS ++ (if entireReverse then oneS else zeroS)) ::
      (lblSASample ++ tabS ++ lblOneIn ++ toString (2 ^ offRate)) ::
      (lblFTabChars ++ tabS ++ toString ftabChars) ::
      (List.range names.length).map (summarySeqRow color names plen), ?_, ?_, ?_, ?_⟩
  · simp only [print_index_summary]
    rw [if_pos h]
  · simp
    omega
  · rfl
  · intro i hi
    rw [getElem?_cons6]
    rw [List.getElem?_map]
    rw [List.getElem?_range hi]
    simp [summarySeqRow]

/-- Witness for C8 at a concrete two-reference colorspace index. -/
theorem claim_C8_witness :
    (print_index_summary 3 5 true false 1 2 2 [oneS, zeroS] (fun i => 10 * (i + 1))).isOk
      = true := by
  obtain ⟨ls, h1, h2⟩ := claim_C8 3 5 true false 1 2 2 [oneS, zeroS]
    (fun i => 10 * (i + 1)) (by decide)
  rw [h1]
  rfl
